import Mathlib

/-!
Verification of the core of `tq` (a command-line TOML processor): dotted-path
resolution over a parsed document value (`get_path`) and shell-oriented
rendering (`FmtBash`, `write_atom`, `is_atomic`) from `src/main.rs`.

The document model is the `toml::Value` tree produced by the external TOML
parser; string atoms and table keys are passed through `snailquote::unescape`
before being written.  Machine integers are modelled as `Int` (i64 `Display`
prints plain decimal, which `Int` reproduces); floats and datetimes are carried
as their canonical display text, since the renderer only ever forwards their
`Display` output verbatim.
-/

namespace Tq

/-- The `toml::Value` document model (see also spec section 3): a tagged union
of scalars (`string`, `boolean`, `integer`, `float`, `datetime`) and composites
(`array` of values in document order, `table` of key/value entries).
Modelled from the spec: the table entry order.  The `toml` crate map iterates
in insertion order exactly when the `preserve_order` cargo feature is on; the
manifest is not part of the sources, and the spec fixes "insertion order
preserved", so a table is embedded as its entry list in that order (keys
unique, guaranteed upstream). -/
inductive Value where
  | string (s : String)
  | boolean (b : Bool)
  | integer (i : Int)
  | float (text : String)
  | datetime (text : String)
  | array (elems : List Value)
  | table (entries : List (String × Value))

/-- The error enum of `main.rs` restricted to the core: `Error::NoSuchKey`,
displayed via `thiserror` as `"No such key: {key}"`.  (`Error::IOError` wraps
upstream I/O failures of the excluded CLI glue and never reaches the core.) -/
inductive Error where
  | noSuchKey (key : String)
deriving DecidableEq

/-- The user-facing message of an `Error`, per its `thiserror` display
attribute `"No such key: {key}"`. -/
def Error.message : Error → String
  | .noSuchKey key => "No such key: " ++ key

/-- Rust `str::split('.')` on a char list: always at least one segment; every
`'.'` ends the current segment, so an empty input gives one empty segment and
adjacent/leading/trailing dots give empty segments. -/
def splitDots : List Char → List (List Char)
  | [] => [[]]
  | c :: rest =>
    if c = '.' then [] :: splitDots rest
    else
      match splitDots rest with
      | seg :: segs => (c :: seg) :: segs
      | [] => [[c]]

/-- `ExportSpec::from_str`: split the pattern on `'.'` into path segments
(Rust `s.split('.')`); parsing never fails. -/
def exportSpecPath (s : String) : List String :=
  (splitDots s.data).map String.mk

/-- `toml::Value::get` with a string index: a key lookup that succeeds only on
tables (the `toml` crate's `Index for &str` returns `None` on every
non-table). -/
def Value.get (v : Value) (key : String) : Option Value :=
  match v with
  | .table entries => entries.lookup key
  | _ => none

/-- The loop of `get_path`: walk the remaining segments; on any failed lookup
report `NoSuchKey` carrying `fullKey`, the whole dotted path joined with `"."`
(the Rust closure rebuilds it from the full `path` slice at every step). -/
def getPathLoop (fullKey : String) : Value → List String → Except Error Value
  | obj, [] => .ok obj
  | obj, part :: rest =>
    match obj.get part with
    | some next => getPathLoop fullKey next rest
    | none => .error (.noSuchKey fullKey)

/-- `get_path` from `main.rs`: resolve a segment list against a document,
with the error key built by joining all segments with `"."`. -/
def get_path (obj : Value) (path : List String) : Except Error Value :=
  getPathLoop (String.intercalate "." path) obj path

/-! ### snailquote

`write_atom` and the table arm call `snailquote::unescape(..).unwrap()`.
`snailquote` is an external dependency (not vendored in the sources); its
`unescape` is embedded below from the crate's published algorithm: an
sh-style unquoting pass tracking single-quote / double-quote state, with
backslash escapes recognised only inside double quotes, and `Err` (hence a
panic through `unwrap`) on an invalid or truncated escape. -/

/-- The single-character escapes `snailquote::unescape` accepts after a
backslash inside double quotes (`\u` is handled separately). -/
def escChar (c : Char) : Option Char :=
  if c = 'a' then some (Char.ofNat 0x07)
  else if c = 'b' then some (Char.ofNat 0x08)
  else if c = 'v' then some (Char.ofNat 0x0B)
  else if c = 'f' then some (Char.ofNat 0x0C)
  else if c = 'n' then some '\n'
  else if c = 'r' then some '\r'
  else if c = 't' then some '\t'
  else if c = 'e' then some (Char.ofNat 0x1B)
  else if c = 'E' then some (Char.ofNat 0x1B)
  else if c = '\\' then some '\\'
  else if c = '\'' then some '\''
  else if c = '"' then some '"'
  else if c = '$' then some '$'
  else if c = Char.ofNat 0x60 then some (Char.ofNat 0x60)
  else if c = ' ' then some ' '
  else none

/-- Hexadecimal digit value, as accepted by `u32::from_str_radix(.., 16)`. -/
def hexVal (c : Char) : Option Nat :=
  if '0' ≤ c ∧ c ≤ '9' then some (c.toNat - '0'.toNat)
  else if 'a' ≤ c ∧ c ≤ 'f' then some (c.toNat - 'a'.toNat + 10)
  else if 'A' ≤ c ∧ c ≤ 'F' then some (c.toNat - 'A'.toNat + 10)
  else none

/-- Fold a digit list as a base-16 numeral, failing on any non-hex char
(`u32::from_str_radix` semantics, minus the overflow bound which is checked
by the caller). -/
def hexDigits : List Char → Option Nat
  | [] => some 0
  | c :: cs =>
    match hexVal c with
    | none => none
    | some d =>
      match hexDigits cs with
      | none => none
      | some rest => some (d * 16 ^ cs.length + rest)

/-- The scanner state of `snailquote::unescape`.  The Rust loop keeps two
booleans (`in_single_quote`, `in_double_quote`) and pulls extra characters
from the iterator inside the escape handling; here the pulls in progress are
reified as extra states so the scanner advances one character at a time:
`escape` is "just consumed a backslash inside double quotes", `uniStart` is
"just consumed `\u`, expecting `{`", `uniDigits ds` is "inside `\u{..}`
having read the digits `ds`". -/
inductive UState where
  | plain (inSingle inDouble : Bool)
  | escape
  | uniStart
  | uniDigits (ds : List Char)

/-- The state-machine loop of `snailquote::unescape`: chars are copied to the
accumulator; an unescaped `'` or `"` toggles the corresponding quote state
(and is dropped); inside double quotes a backslash must start a valid escape,
otherwise the whole call fails (which `main.rs` turns into a panic via
`unwrap`).  A `\u` escape must carry a brace-delimited, non-empty, in-range
hex scalar value (`u32::from_str_radix` errors on empty or oversized input,
`char::from_u32` on surrogates / out-of-range); input ending in the middle of
an escape is an error.  Unterminated quotes are not an error. -/
def unescapeGo : List Char → UState → List Char → Option (List Char)
  | [], .plain _ _, acc => some acc
  | [], _, _ => none
  | c :: rest, .plain inSingle inDouble, acc =>
    if inSingle then
      if c = '\'' then unescapeGo rest (.plain false false) acc
      else unescapeGo rest (.plain true false) (acc ++ [c])
    else if inDouble then
      if c = '"' then unescapeGo rest (.plain false false) acc
      else if c = '\\' then unescapeGo rest .escape acc
      else unescapeGo rest (.plain false true) (acc ++ [c])
    else if c = '\'' then unescapeGo rest (.plain true false) acc
    else if c = '"' then unescapeGo rest (.plain false true) acc
    else unescapeGo rest (.plain false false) (acc ++ [c])
  | c :: rest, .escape, acc =>
    if c = 'u' then unescapeGo rest .uniStart acc
    else
      match escChar c with
      | some e => unescapeGo rest (.plain false true) (acc ++ [e])
      | none => none
  | c :: rest, .uniStart, acc =>
    if c = Char.ofNat 0x7B then unescapeGo rest (.uniDigits []) acc
    else none
  | c :: rest, .uniDigits ds, acc =>
    if c = Char.ofNat 0x7D then
      match ds, hexDigits ds with
      | [], _ => none
      | _ :: _, none => none
      | _ :: _, some val =>
        if val < 2 ^ 32 ∧ Nat.isValidChar val then
          unescapeGo rest (.plain false true) (acc ++ [Char.ofNat val])
        else none
    else unescapeGo rest (.uniDigits (ds ++ [c])) acc

/-- `snailquote::unescape`: `some` of the unquoted raw content, or `none` where
the crate returns `Err` (invalid/truncated escape). -/
def unescape (s : String) : Option String :=
  (unescapeGo s.data (.plain false false) []).map String.mk

/-! ### The renderer -/

/-- `is_atomic` from `main.rs`: the scalar variants (`String`, `Boolean`,
`Integer`, `Datetime`, `Float`); arrays and tables are composite. -/
def is_atomic : Value → Bool
  | .string _ | .boolean _ | .integer _ | .datetime _ | .float _ => true
  | _ => false

/-- The two ways the renderer can panic: the `unreachable!()` catch-all of
`write_atom` (hit only on a composite), and the `.unwrap()` on
`snailquote::unescape` (hit on a malformed shell-escape in a string atom or a
table key). -/
inductive PanicKind where
  | unreachableAtom
  | unescapeUnwrap
deriving DecidableEq

/-- `write_atom` from `main.rs`: a `String` is written as its
snailquote-unescaped content (the `unwrap` panic becomes
`.error .unescapeUnwrap`); `Integer`, `Boolean`, `Float`, `Datetime` are
written via their `Display` text; the composite catch-all is the
`unreachable!()` panic. -/
def write_atom : Value → Except PanicKind String
  | .string s =>
    match unescape s with
    | some raw => .ok raw
    | none => .error .unescapeUnwrap
  | .integer i => .ok (toString i)
  | .boolean b => .ok (if b then "true" else "false")
  | .float text => .ok text
  | .datetime text => .ok text
  | _ => .error .unreachableAtom

/-- The `Value::Array` arm of `FmtBash::fmt`: walk the elements with the
`had_one` flag, skipping non-atomic elements, writing a single separating
space before every atom after the first. -/
def fmtArrayLoop : List Value → Bool → String → Except PanicKind String
  | [], _, acc => .ok acc
  | elem :: rest, had_one, acc =>
    if is_atomic elem then
      let acc' := if had_one then acc ++ " " else acc
      match write_atom elem with
      | .ok a => fmtArrayLoop rest true (acc' ++ a)
      | .error e => .error e
    else fmtArrayLoop rest had_one acc

/-- The `Value::Table` arm of `FmtBash::fmt`: walk the entries in order with
the `had_one` flag, skipping entries with non-atomic values; a surviving entry
is written as `[` + unescaped key + `]=` + atom (the key goes through the same
`snailquote::unescape(..).unwrap()` as a string atom). -/
def fmtTableLoop : List (String × Value) → Bool → String → Except PanicKind String
  | [], _, acc => .ok acc
  | (key, value) :: rest, had_one, acc =>
    if is_atomic value then
      let acc' := if had_one then acc ++ " " else acc
      match unescape key with
      | none => .error .unescapeUnwrap
      | some ku =>
        match write_atom value with
        | .ok a => fmtTableLoop rest true (acc' ++ "[" ++ ku ++ "]=" ++ a)
        | .error e => .error e
    else fmtTableLoop rest had_one acc

/-- `FmtBash::fmt` (`Display` for `FmtBash`): arrays and tables via their
loops, an `Integer` via `writeln!` (decimal text plus a newline), every other
value through `write_atom` with nothing added. -/
def fmtBash : Value → Except PanicKind String
  | .array arr => fmtArrayLoop arr false ""
  | .table tbl => fmtTableLoop tbl false ""
  | .integer i => .ok (toString i ++ "\n")
  | x => write_atom x

/-! ### Specification-side vocabulary

Definitions used to state the properties (not translated from the source):
a sequential `Except`-mapper over a list, the one-entry rendering of a table
row, the spec's step-by-step resolution relation, and character classes for
the string round-trip statements. -/

/-- Map a fallible function over a list, failing on the first error. -/
def mapExcept (f : α → Except ε β) : List α → Except ε (List β)
  | [] => .ok []
  | a :: as =>
    match f a with
    | .error e => .error e
    | .ok b =>
      match mapExcept f as with
      | .error e => .error e
      | .ok bs => .ok (b :: bs)

/-- The text one surviving table entry contributes:
`[` + unescaped key + `]=` + rendered atom. -/
def renderEntry (entry : String × Value) : Except PanicKind String :=
  match unescape entry.1 with
  | none => .error .unescapeUnwrap
  | some ku =>
    match write_atom entry.2 with
    | .error e => .error e
    | .ok a => .ok ("[" ++ ku ++ "]=" ++ a)

/-- The spec's resolution relation (spec section 4.1): starting at the root,
each segment in order requires the current value to be a table containing the
segment as a key. -/
def specResolve : Value → List String → Option Value
  | v, [] => some v
  | .table entries, seg :: rest =>
    match entries.lookup seg with
    | some next => specResolve next rest
    | none => none
  | _, _ :: _ => none

/-- Identifier characters: ASCII letters, digits, underscore. -/
def identChar (c : Char) : Bool :=
  c.isAlpha || c.isDigit || c = '_'

/-- Shell-inert characters for the round-trip statements: identifier
characters and the space.  None of them is special to `unescape` (not a
quote, double quote or backslash) nor an escape introducer. -/
def inertChar (c : Char) : Bool :=
  identChar c || c = ' '

/-- Delete every single-quote character. -/
def stripSQ (s : String) : String :=
  String.mk (s.data.filter (fun c => c ≠ '\''))

/-- A scalar whose `write_atom` rendering cannot hit the failing
`snailquote::unescape` unwrap: any non-string, or a string whose content
unescapes successfully. -/
def atomSafe : Value → Bool
  | .string s => (unescape s).isSome
  | _ => true

/-- A value whose rendering never hits a failing `snailquote::unescape`
unwrap: every string atom the renderer writes, and every key of a surviving
(atomic-valued) table entry, unescapes successfully. -/
def renderSafe : Value → Bool
  | .array elems => elems.all atomSafe
  | .table entries =>
    entries.all fun e =>
      !is_atomic e.2 || ((unescape e.1).isSome && atomSafe e.2)
  | v => atomSafe v

/-- The concatenation `" " ++ t₁ ++ " " ++ t₂ ++ ⋯`: what the rendering loops
append after the first surviving token (`had_one` set). -/
def prependSpace (ts : List String) : String :=
  ts.foldr (fun t r => " " ++ t ++ r) ""

/-! ### Path resolution lemmas -/

theorem getPathLoop_error {fullKey : String} :
    ∀ {path : List String} {obj : Value} {e : Error},
      getPathLoop fullKey obj path = .error e → e = .noSuchKey fullKey := by
  intro path
  induction path with
  | nil => intro obj e h; simp [getPathLoop] at h
  | cons part rest ih =>
    intro obj e h
    rw [getPathLoop] at h
    cases hg : obj.get part with
    | some next => rw [hg] at h; exact ih h
    | none =>
      rw [hg] at h
      simp only [Except.error.injEq] at h
      exact h.symm

theorem getPathLoop_ok {fullKey : String} :
    ∀ {path : List String} {obj v : Value},
      specResolve obj path = some v → getPathLoop fullKey obj path = .ok v := by
  intro path
  induction path with
  | nil =>
    intro obj v h
    simp only [specResolve, Option.some.injEq] at h
    subst h
    rfl
  | cons part rest ih =>
    intro obj v h
    cases obj with
    | table entries =>
      rw [specResolve] at h
      cases hg : entries.lookup part with
      | some next =>
        rw [hg] at h
        rw [getPathLoop]
        have : Value.get (.table entries) part = some next := hg
        rw [this]
        exact ih h
      | none => rw [hg] at h; exact absurd h (by simp)
    | string s => simp [specResolve] at h
    | boolean b => simp [specResolve] at h
    | integer i => simp [specResolve] at h
    | float t => simp [specResolve] at h
    | datetime t => simp [specResolve] at h
    | array elems => simp [specResolve] at h

theorem intercalate_go_append (ys : List String) :
    ∀ a b : String, String.intercalate.go (a ++ b) "." ys
      = a ++ String.intercalate.go b "." ys := by
  induction ys with
  | nil => intro a b; rfl
  | cons y ys ih =>
    intro a b
    show String.intercalate.go ((a ++ b) ++ "." ++ y) "." ys
        = a ++ String.intercalate.go ((b ++ ".") ++ y) "." ys
    rw [String.append_assoc a b ".", String.append_assoc a (b ++ ".") y]
    exact ih a ((b ++ ".") ++ y)

theorem splitDots_ne_nil (cs : List Char) : splitDots cs ≠ [] := by
  cases cs with
  | nil => simp [splitDots]
  | cons c rest =>
    by_cases hc : c = '.'
    · simp [splitDots, hc]
    · cases hsp : splitDots rest with
      | nil => simp [splitDots, hc, hsp]
      | cons s tl => simp [splitDots, hc, hsp]

theorem intercalate_splitDots (cs : List Char) :
    String.intercalate "." ((splitDots cs).map String.mk) = String.mk cs := by
  induction cs with
  | nil => rfl
  | cons c rest ih =>
    cases hsp : splitDots rest with
    | nil => exact absurd hsp (splitDots_ne_nil rest)
    | cons s0 tl =>
      rw [hsp] at ih
      by_cases hc : c = '.'
      · subst hc
        rw [show splitDots ('.' :: rest) = [] :: s0 :: tl from by
          simp [splitDots, hsp]]
        show String.intercalate.go ("." ++ String.mk s0) "." (tl.map String.mk)
            = String.mk ('.' :: rest)
        rw [intercalate_go_append, show String.intercalate.go (String.mk s0) "."
          (tl.map String.mk) = String.mk rest from ih]
        rfl
      · rw [show splitDots (c :: rest) = (c :: s0) :: tl from by
          simp [splitDots, hc, hsp]]
        show String.intercalate.go (String.mk [c] ++ String.mk s0) "."
            (tl.map String.mk) = String.mk (c :: rest)
        rw [intercalate_go_append, show String.intercalate.go (String.mk s0) "."
          (tl.map String.mk) = String.mk rest from ih]
        rfl

/-- C3: parsing a pattern and joining the segments back with `"."` is the
identity, and whenever dotted-path resolution fails — some segment's
container is missing or not a table — the error is `NoSuchKey` carrying the
full dotted path (all segments joined by `"."`, i.e. the original pattern
string), and its displayed message contains that full path, never a
truncated prefix or only the failing segment. -/
theorem get_path_error_reports_full_path :
    (∀ q : String, String.intercalate "." (exportSpecPath q) = q) ∧
      (∀ (d : Value) (p : List String) (e : Error), get_path d p = .error e →
        e = .noSuchKey (String.intercalate "." p) ∧
          e.message = "No such key: " ++ String.intercalate "." p) := by
  constructor
  · intro q
    obtain ⟨l⟩ := q
    exact intercalate_splitDots l
  · intro d p e h
    have he : e = .noSuchKey (String.intercalate "." p) := getPathLoop_error h
    exact ⟨he, by rw [he]; rfl⟩

/-- Witness for C3: the spec's own example — resolving `"a.b.c"` against
`{"a": {"b": {}}}` fails reporting the full path `"a.b.c"`, though only the
final segment was absent. -/
theorem get_path_error_reports_full_path_witness :
    String.intercalate "." (exportSpecPath "a.b.c") = "a.b.c" ∧
      Error.noSuchKey "a.b.c"
        = .noSuchKey (String.intercalate "." ["a", "b", "c"]) ∧
      (Error.noSuchKey "a.b.c").message
        = "No such key: " ++ String.intercalate "." ["a", "b", "c"] :=
  ⟨get_path_error_reports_full_path.1 "a.b.c",
    (get_path_error_reports_full_path.2
      (.table [("a", .table [("b", .table [])])]) ["a", "b", "c"]
      (.noSuchKey "a.b.c") rfl).1,
    (get_path_error_reports_full_path.2
      (.table [("a", .table [("b", .table [])])]) ["a", "b", "c"]
      (.noSuchKey "a.b.c") rfl).2⟩

/-- C4: when every segment of the path resolves through nested tables (the
spec's step-by-step resolution relation succeeds), `get_path` returns exactly
the sub-value reached by performing each segment as a table key lookup in
order from the root. -/
theorem get_path_follows_table_lookups (d : Value) (p : List String) (v : Value)
    (h : specResolve d p = some v) : get_path d p = .ok v :=
  getPathLoop_ok h

/-- Witness for C4: resolving `["a", "b"]` in `{"a": {"b": 7}}` returns the
integer 7. -/
theorem get_path_follows_table_lookups_witness :
    get_path (.table [("a", .table [("b", .integer 7)])]) ["a", "b"]
      = .ok (.integer 7) :=
  get_path_follows_table_lookups
    (.table [("a", .table [("b", .integer 7)])]) ["a", "b"] (.integer 7) rfl

/-- C9: the empty pattern parses to exactly one segment, the empty string,
and resolving it is an ordinary single-segment lookup of the empty-string key
against the root — succeeding exactly when the root table has a key `""`,
failing with `NoSuchKey ""` otherwise, with no special-casing. -/
theorem empty_pattern_is_ordinary_lookup :
    exportSpecPath "" = [""] ∧
      (∀ d v : Value, d.get "" = some v → get_path d [""] = .ok v) ∧
      (∀ d : Value, d.get "" = none →
        get_path d [""] = .error (.noSuchKey "")) := by
  refine ⟨rfl, ?_, ?_⟩
  · intro d v h
    show getPathLoop (String.intercalate "." [""]) d [""] = .ok v
    rw [getPathLoop, h]
    rfl
  · intro d h
    show getPathLoop (String.intercalate "." [""]) d [""]
      = .error (.noSuchKey "")
    rw [getPathLoop, h]
    rfl

/-- Witness for C9: the empty-key lookup succeeds on `{"": 7}` and fails with
`NoSuchKey ""` on the empty table. -/
theorem empty_pattern_is_ordinary_lookup_witness :
    get_path (.table [("", .integer 7)]) [""] = .ok (.integer 7) ∧
      get_path (.table []) [""] = .error (.noSuchKey "") :=
  ⟨empty_pattern_is_ordinary_lookup.2.1 (.table [("", .integer 7)])
      (.integer 7) rfl,
    empty_pattern_is_ordinary_lookup.2.2 (.table []) rfl⟩

/-! ### Renderer: the `unreachable!()` branch -/

theorem write_atom_atomic_error {v : Value} {e : PanicKind}
    (ha : is_atomic v = true) (h : write_atom v = .error e) :
    e = .unescapeUnwrap := by
  cases v with
  | string s =>
    rw [write_atom] at h
    cases hu : unescape s with
    | some raw => rw [hu] at h; exact absurd h (by simp)
    | none => rw [hu] at h; simp only [Except.error.injEq] at h; exact h.symm
  | boolean b => exact absurd h (by simp [write_atom])
  | integer i => exact absurd h (by simp [write_atom])
  | float t => exact absurd h (by simp [write_atom])
  | datetime t => exact absurd h (by simp [write_atom])
  | array elems => exact absurd ha (by simp [is_atomic])
  | table entries => exact absurd ha (by simp [is_atomic])

theorem fmtArrayLoop_ne_unreachable :
    ∀ (xs : List Value) (had_one : Bool) (acc : String),
      fmtArrayLoop xs had_one acc ≠ .error .unreachableAtom := by
  intro xs
  induction xs with
  | nil => intro had_one acc h; exact absurd h (by simp [fmtArrayLoop])
  | cons elem rest ih =>
    intro had_one acc h
    rw [fmtArrayLoop] at h
    by_cases ha : is_atomic elem = true
    · rw [if_pos ha] at h
      cases hw : write_atom elem with
      | ok a => rw [hw] at h; exact ih _ _ h
      | error e =>
        rw [hw] at h
        simp only [Except.error.injEq] at h
        exact absurd (write_atom_atomic_error ha (h ▸ hw)) (by simp)
    · rw [if_neg ha] at h; exact ih _ _ h

theorem fmtTableLoop_ne_unreachable :
    ∀ (es : List (String × Value)) (had_one : Bool) (acc : String),
      fmtTableLoop es had_one acc ≠ .error .unreachableAtom := by
  intro es
  induction es with
  | nil => intro had_one acc h; exact absurd h (by simp [fmtTableLoop])
  | cons entry rest ih =>
    intro had_one acc h
    obtain ⟨key, value⟩ := entry
    rw [fmtTableLoop] at h
    by_cases ha : is_atomic value = true
    · rw [if_pos ha] at h
      cases hk : unescape key with
      | none => rw [hk] at h; exact absurd h (by simp)
      | some ku =>
        rw [hk] at h
        cases hw : write_atom value with
        | ok a => rw [hw] at h; exact ih _ _ h
        | error e =>
          rw [hw] at h
          simp only [Except.error.injEq] at h
          exact absurd (write_atom_atomic_error ha (h ▸ hw)) (by simp)
    · rw [if_neg ha] at h; exact ih _ _ h

/-- C10: rendering any value through `FmtBash` never executes the
`unreachable!()` catch-all of `write_atom`: array elements and table values
are filtered by `is_atomic` before atom rendering, and the composite variants
are consumed by the `Array`, `Table` and `Integer` arms before the
fallthrough arm, so the composite-atom panic is not a possible outcome. -/
theorem fmtBash_never_unreachable (v : Value) :
    fmtBash v ≠ .error .unreachableAtom := by
  cases v with
  | array elems => exact fmtArrayLoop_ne_unreachable elems false ""
  | table entries => exact fmtTableLoop_ne_unreachable entries false ""
  | integer i => simp [fmtBash]
  | string s =>
    intro h
    have h' : write_atom (.string s) = .error .unreachableAtom := h
    exact absurd (write_atom_atomic_error (by simp [is_atomic]) h') (by simp)
  | boolean b => simp [fmtBash, write_atom]
  | float t => simp [fmtBash, write_atom]
  | datetime t => simp [fmtBash, write_atom]

/-- Witness for C10 at a concrete composite-bearing value. -/
theorem fmtBash_never_unreachable_witness :
    fmtBash (.array [.table [], .string "x"]) ≠ .error .unreachableAtom :=
  fmtBash_never_unreachable (.array [.table [], .string "x"])

/-! ### Renderer: joining the surviving tokens -/

theorem intercalate_go_eq (ts : List String) :
    ∀ acc : String, String.intercalate.go acc " " ts = acc ++ prependSpace ts := by
  induction ts with
  | nil => intro acc; simp [String.intercalate.go, prependSpace]
  | cons t rest ih =>
    intro acc
    show String.intercalate.go (acc ++ " " ++ t) " " rest = _
    rw [ih]
    simp [prependSpace, String.append_assoc]

theorem intercalate_space_cons (t : String) (ts : List String) :
    String.intercalate " " (t :: ts) = t ++ prependSpace ts := by
  show String.intercalate.go t " " ts = _
  exact intercalate_go_eq ts t

theorem mapExcept_cons_ok {f : α → Except ε β} {a : α} {as : List α}
    {bs : List β} (h : mapExcept f (a :: as) = .ok bs) :
    ∃ b bs', f a = .ok b ∧ mapExcept f as = .ok bs' ∧ bs = b :: bs' := by
  rw [mapExcept] at h
  cases hf : f a with
  | error e => rw [hf] at h; cases h
  | ok b =>
    rw [hf] at h
    cases hm : mapExcept f as with
    | error e => rw [hm] at h; cases h
    | ok bs' =>
      rw [hm] at h
      simp only [Except.ok.injEq] at h
      exact ⟨b, bs', rfl, rfl, h.symm⟩

theorem fmtArrayLoop_true_eq (xs : List Value) :
    ∀ (ts : List String) (acc : String),
      mapExcept write_atom (xs.filter is_atomic) = .ok ts →
      fmtArrayLoop xs true acc = .ok (acc ++ prependSpace ts) := by
  induction xs with
  | nil =>
    intro ts acc h
    simp only [List.filter_nil, mapExcept, Except.ok.injEq] at h
    subst h
    simp [fmtArrayLoop, prependSpace]
  | cons x rest ih =>
    intro ts acc h
    cases ha : is_atomic x with
    | true =>
      rw [List.filter_cons_of_pos ha] at h
      obtain ⟨a, ts', hw, hm, hts⟩ := mapExcept_cons_ok h
      subst hts
      rw [fmtArrayLoop, if_pos ha, hw]
      show fmtArrayLoop rest true (acc ++ " " ++ a) = _
      rw [ih ts' _ hm]
      simp [prependSpace, String.append_assoc]
    | false =>
      rw [List.filter_cons_of_neg (by simp [ha])] at h
      rw [fmtArrayLoop, if_neg (by simp [ha])]
      exact ih ts acc h

theorem fmtArrayLoop_false_eq (xs : List Value) (ts : List String)
    (h : mapExcept write_atom (xs.filter is_atomic) = .ok ts) :
    ∀ acc : String, fmtArrayLoop xs false acc
      = .ok (acc ++ String.intercalate " " ts) := by
  induction xs generalizing ts with
  | nil =>
    intro acc
    simp only [List.filter_nil, mapExcept, Except.ok.injEq] at h
    subst h
    simp [fmtArrayLoop, String.intercalate]
  | cons x rest ih =>
    intro acc
    cases ha : is_atomic x with
    | true =>
      rw [List.filter_cons_of_pos ha] at h
      obtain ⟨a, ts', hw, hm, hts⟩ := mapExcept_cons_ok h
      subst hts
      rw [fmtArrayLoop, if_pos ha, hw]
      show fmtArrayLoop rest true (acc ++ a) = _
      rw [fmtArrayLoop_true_eq rest ts' _ hm]
      rw [intercalate_space_cons]
      simp [String.append_assoc]
    | false =>
      rw [List.filter_cons_of_neg (by simp [ha])] at h
      rw [fmtArrayLoop, if_neg (by simp [ha])]
      exact ih ts h acc

/-- C5: an array renders as exactly its scalar elements in document order,
each rendered as an atom by `write_atom`, joined by a single space with no
trailing separator and no trailing newline; composite elements (arrays and
tables) are skipped silently with no placeholder, and an array with zero
scalar elements renders as the empty string (`String.intercalate " " []`). -/
theorem array_renders_scalars_space_joined (xs : List Value) (ts : List String)
    (h : mapExcept write_atom (xs.filter is_atomic) = .ok ts) :
    fmtBash (.array xs) = .ok (String.intercalate " " ts) := by
  show fmtArrayLoop xs false "" = _
  rw [fmtArrayLoop_false_eq xs ts h ""]
  rw [String.empty_append]

/-- Witness for C5: the spec's example — `[1, {}, 2]` renders as `"1 2"`,
the empty nested table skipped with no placeholder. -/
theorem array_renders_scalars_space_joined_witness :
    fmtBash (.array [.integer 1, .table [], .integer 2]) = .ok "1 2" :=
  array_renders_scalars_space_joined
    [.integer 1, .table [], .integer 2] ["1", "2"] rfl

theorem renderEntry_ok {key : String} {value : Value} {t : String}
    (h : renderEntry (key, value) = .ok t) :
    ∃ ku a, unescape key = some ku ∧ write_atom value = .ok a ∧
      t = "[" ++ ku ++ "]=" ++ a := by
  rw [renderEntry] at h
  cases hk : unescape key with
  | none => rw [hk] at h; cases h
  | some ku =>
    rw [hk] at h
    cases hw : write_atom value with
    | error e => rw [hw] at h; cases h
    | ok a =>
      rw [hw] at h
      simp only [Except.ok.injEq] at h
      exact ⟨ku, a, rfl, rfl, h.symm⟩

theorem filter_entry_cons_pos {key : String} {value : Value}
    {rest : List (String × Value)} (ha : is_atomic value = true) :
    List.filter (fun e => is_atomic e.2) ((key, value) :: rest)
      = (key, value) :: List.filter (fun e => is_atomic e.2) rest := by
  simp [List.filter_cons, ha]

theorem filter_entry_cons_neg {key : String} {value : Value}
    {rest : List (String × Value)} (ha : is_atomic value = false) :
    List.filter (fun e => is_atomic e.2) ((key, value) :: rest)
      = List.filter (fun e => is_atomic e.2) rest := by
  simp [List.filter_cons, ha]

theorem fmtTableLoop_true_eq (es : List (String × Value)) :
    ∀ (ts : List String) (acc : String),
      mapExcept renderEntry (es.filter fun e => is_atomic e.2) = .ok ts →
      fmtTableLoop es true acc = .ok (acc ++ prependSpace ts) := by
  induction es with
  | nil =>
    intro ts acc h
    simp only [List.filter_nil, mapExcept, Except.ok.injEq] at h
    subst h
    simp [fmtTableLoop, prependSpace]
  | cons e rest ih =>
    intro ts acc h
    obtain ⟨key, value⟩ := e
    cases ha : is_atomic value with
    | true =>
      rw [filter_entry_cons_pos ha] at h
      obtain ⟨t, ts', he, hm, hts⟩ := mapExcept_cons_ok h
      obtain ⟨ku, a, hk, hw, ht⟩ := renderEntry_ok he
      subst hts
      rw [fmtTableLoop, if_pos ha, hk, hw]
      show fmtTableLoop rest true (acc ++ " " ++ "[" ++ ku ++ "]=" ++ a) = _
      rw [ih ts' _ hm]
      subst ht
      simp only [prependSpace, List.foldr_cons, String.append_assoc]
    | false =>
      rw [filter_entry_cons_neg ha] at h
      rw [fmtTableLoop, if_neg (by simp [ha])]
      exact ih ts acc h

theorem fmtTableLoop_false_eq (es : List (String × Value)) (ts : List String)
    (h : mapExcept renderEntry (es.filter fun e => is_atomic e.2) = .ok ts) :
    ∀ acc : String, fmtTableLoop es false acc
      = .ok (acc ++ String.intercalate " " ts) := by
  induction es generalizing ts with
  | nil =>
    intro acc
    simp only [List.filter_nil, mapExcept, Except.ok.injEq] at h
    subst h
    simp [fmtTableLoop, String.intercalate]
  | cons e rest ih =>
    intro acc
    obtain ⟨key, value⟩ := e
    cases ha : is_atomic value with
    | true =>
      rw [filter_entry_cons_pos ha] at h
      obtain ⟨t, ts', he, hm, hts⟩ := mapExcept_cons_ok h
      obtain ⟨ku, a, hk, hw, ht⟩ := renderEntry_ok he
      subst hts
      rw [fmtTableLoop, if_pos ha, hk, hw]
      show fmtTableLoop rest true (acc ++ "[" ++ ku ++ "]=" ++ a) = _
      rw [fmtTableLoop_true_eq rest ts' _ hm]
      rw [intercalate_space_cons]
      subst ht
      simp [String.append_assoc]
    | false =>
      rw [filter_entry_cons_neg ha] at h
      rw [fmtTableLoop, if_neg (by simp [ha])]
      exact ih ts h acc

/-- C6 is false as stated: the key of a surviving entry is not emitted as a
shell-quoted key.  It is passed through `snailquote::unescape` only, with no
shell-quoting stage — the same defect as C1: the key `a'b` is emitted as the
bare `ab` (quote deleted, and `ab` shell-parses to itself, not to `a'b`), and
the key `a b` is emitted as the bare unquoted `a b`. -/
theorem table_key_not_shell_quoted_counterexample :
    fmtBash (.table [("a'b", .integer 1)]) = .ok "[ab]=1" ∧
      unescape "ab" = some "ab" ∧
      "ab" ≠ "a'b" ∧
      fmtBash (.table [("a b", .integer 1)]) = .ok "[a b]=1" :=
  ⟨rfl, rfl, by decide, rfl⟩

/-- C6 (amended): a table renders its entries in document insertion order;
each entry with a scalar value is emitted as `[<key>]=` followed by the atom,
where the key is passed through the same `snailquote::unescape`-only pipeline
as string atoms (no shell-quoting stage, per `renderEntry`); entries with
composite values are skipped silently, and the surviving entries are joined
by a single space with no trailing separator and no trailing newline. -/
theorem table_renders_entries_space_joined (es : List (String × Value))
    (ts : List String)
    (h : mapExcept renderEntry (es.filter fun e => is_atomic e.2) = .ok ts) :
    fmtBash (.table es) = .ok (String.intercalate " " ts) := by
  show fmtTableLoop es false "" = _
  rw [fmtTableLoop_false_eq es ts h ""]
  rw [String.empty_append]

/-- Witness for C6: the spec's example — `{"a": 1, "b": [9]}` in insertion
order `a, b` renders as `"[a]=1"`, the composite-valued entry skipped. -/
theorem table_renders_entries_space_joined_witness :
    fmtBash (.table [("a", .integer 1), ("b", .array [.integer 9])])
      = .ok "[a]=1" :=
  table_renders_entries_space_joined
    [("a", .integer 1), ("b", .array [.integer 9])] ["[a]=1"] rfl

/-- C7: an `Integer` rendered as the directly resolved root value produces its
decimal digits followed by exactly one trailing newline, while every other
directly resolved scalar kind is rendered as exactly its `write_atom` text
with nothing appended, and an integer appearing as an array element or as a
table entry's value contributes its bare decimal digits with no newline. -/
theorem integer_root_trailing_newline :
    (∀ i : Int, fmtBash (.integer i) = .ok (toString i ++ "\n")) ∧
      (∀ v : Value, is_atomic v = true → (∀ i : Int, v ≠ .integer i) →
        fmtBash v = write_atom v) ∧
      (∀ i : Int, fmtBash (.array [.integer i]) = .ok (toString i)) ∧
      (∀ (k : String) (i : Int), unescape k = some k →
        fmtBash (.table [(k, .integer i)]) = .ok ("[" ++ k ++ "]=" ++ toString i)) := by
  refine ⟨fun i => rfl, ?_, ?_, ?_⟩
  · intro v ha hni
    cases v with
    | string s => rfl
    | boolean b => rfl
    | float t => rfl
    | datetime t => rfl
    | integer i => exact absurd rfl (hni i)
    | array elems => exact absurd ha (by simp [is_atomic])
    | table entries => exact absurd ha (by simp [is_atomic])
  · intro i
    show fmtArrayLoop [.integer i] false "" = _
    rw [fmtArrayLoop]
    simp only [is_atomic, if_true]
    show fmtArrayLoop [] true ("" ++ toString i) = _
    rw [fmtArrayLoop, String.empty_append]
  · intro k i hk
    show fmtTableLoop [(k, .integer i)] false "" = _
    rw [fmtTableLoop, if_pos (by simp [is_atomic]), hk]
    show fmtTableLoop [] true ("" ++ "[" ++ k ++ "]=" ++ toString i) = _
    rw [fmtTableLoop]
    simp [String.append_assoc]

/-! ### String unescaping: inert characters and quote stripping -/

theorem inertChar_ne_quote {c : Char} (h : inertChar c = true) : c ≠ '\'' :=
  fun hc => absurd (hc ▸ h) (by decide)

theorem inertChar_ne_dquote {c : Char} (h : inertChar c = true) : c ≠ '"' :=
  fun hc => absurd (hc ▸ h) (by decide)

theorem unescapeGo_inert :
    ∀ cs : List Char, (∀ c ∈ cs, inertChar c = true ∨ c = '\'') →
      ∀ (b : Bool) (acc : List Char),
        unescapeGo cs (.plain b false) acc
          = some (acc ++ cs.filter fun c => c ≠ '\'') := by
  intro cs
  induction cs with
  | nil => intro _ b acc; simp [unescapeGo]
  | cons c rest ih =>
    intro h b acc
    have hrest : ∀ x ∈ rest, inertChar x = true ∨ x = '\'' :=
      fun x hx => h x (List.mem_cons_of_mem _ hx)
    have hfilter := ih hrest
    rcases h c (List.mem_cons_self _ _) with hin | hq
    · have hq' : c ≠ '\'' := inertChar_ne_quote hin
      have hd' : c ≠ '"' := inertChar_ne_dquote hin
      have hcons : List.filter (fun x => x ≠ '\'') (c :: rest)
          = c :: List.filter (fun x => x ≠ '\'') rest := by
        simp [List.filter_cons, hq']
      cases b with
      | true =>
        rw [unescapeGo, if_pos rfl, if_neg hq', hfilter true (acc ++ [c]), hcons]
        simp
      | false =>
        rw [unescapeGo, if_neg (by simp), if_neg (by simp), if_neg hq',
          if_neg hd', hfilter false (acc ++ [c]), hcons]
        simp
    · subst hq
      have hcons : List.filter (fun x => x ≠ '\'') ('\'' :: rest)
          = List.filter (fun x => x ≠ '\'') rest := by
        simp [List.filter_cons]
      cases b with
      | true =>
        rw [unescapeGo, if_pos rfl, if_pos rfl, hfilter false acc, hcons]
      | false =>
        rw [unescapeGo, if_neg (by simp), if_neg (by simp), if_pos rfl,
          hfilter true acc, hcons]

theorem unescape_inert (s : String)
    (h : ∀ c ∈ s.data, inertChar c = true ∨ c = '\'') :
    unescape s = some (stripSQ s) := by
  rw [unescape, unescapeGo_inert s.data h false []]
  rfl

/-- C8: a plain-ASCII identifier-like string — letters, digits and
underscores only — renders as exactly its own characters: the
unescape-then-write pipeline adds no quotes and changes nothing. -/
theorem identifier_string_renders_verbatim (s : String)
    (h : ∀ c ∈ s.data, identChar c = true) :
    fmtBash (.string s) = .ok s := by
  have hin : ∀ c ∈ s.data, inertChar c = true ∨ c = '\'' :=
    fun c hc => Or.inl (by simp [inertChar, h c hc])
  have hu : unescape s = some (stripSQ s) := unescape_inert s hin
  have hself : stripSQ s = s := by
    obtain ⟨data⟩ := s
    show String.mk (data.filter fun c => c ≠ '\'') = String.mk data
    congr 1
    apply List.filter_eq_self.mpr
    intro c hc
    have hi := h c hc
    have : c ≠ '\'' := fun hc' => absurd (hc' ▸ hi) (by decide)
    simpa using this
  show write_atom (.string s) = .ok s
  rw [write_atom, hu]
  show Except.ok (stripSQ s) = .ok s
  rw [hself]

/-- Witness for C8 at the identifier `"abc_123"`. -/
theorem identifier_string_renders_verbatim_witness :
    fmtBash (.string "abc_123") = .ok "abc_123" :=
  identifier_string_renders_verbatim "abc_123" (by decide)

/-- C1 is false as stated: the raw content `a'b` contains a single embedded
quote, but rendering emits `ab` — `snailquote::unescape` deletes the quote
and `write_atom` performs no shell re-quoting — so the shell literal parser
applied to the rendered text reproduces `ab`, not the original `a'b`. -/
theorem shell_roundtrip_counterexample :
    (("a'b".data.filter fun c => c = '\'' || c = ' ').length = 1) ∧
      fmtBash (.string "a'b") = .ok "ab" ∧
      unescape "ab" = some "ab" ∧
      "ab" ≠ "a'b" :=
  ⟨by decide, rfl, rfl, by decide⟩

/-- C1 (amended): rendering a `String` value performs no shell re-quoting at
all — over letters, digits, underscores, spaces and single quotes, the output
is exactly the raw content with every single-quote deleted (spaces left
bare and unquoted); re-parsing the rendered text through the shell literal
parser yields that quote-stripped text itself, which differs from the
original raw content whenever a quote was embedded.  The round-trip of the
claim holds only for contents with no quote; a single embedded quote is
dropped, not escaped. -/
theorem render_string_no_requoting (s : String)
    (h : ∀ c ∈ s.data, inertChar c = true ∨ c = '\'') :
    fmtBash (.string s) = .ok (stripSQ s) ∧
      unescape (stripSQ s) = some (stripSQ s) ∧
      ((∃ c ∈ s.data, c = '\'') → stripSQ s ≠ s) := by
  refine ⟨?_, ?_, ?_⟩
  · have hu := unescape_inert s h
    show write_atom (.string s) = _
    rw [write_atom, hu]
  · have h2 : ∀ c ∈ (stripSQ s).data, inertChar c = true ∨ c = '\'' := by
      intro c hc
      have hc' : c ∈ s.data.filter (fun x => x ≠ '\'') := hc
      exact h c (List.mem_of_mem_filter hc')
    rw [unescape_inert (stripSQ s) h2]
    show some (String.mk ((s.data.filter fun x => x ≠ '\'').filter
      fun x => x ≠ '\'')) = _
    congr 2
    apply List.filter_eq_self.mpr
    intro c hc
    exact (List.mem_filter.mp hc).2
  · rintro ⟨c, hc, rfl⟩ hss
    have hdata : s.data.filter (fun x => x ≠ '\'') = s.data :=
      congrArg String.data hss
    have := List.filter_eq_self.mp hdata _ hc
    simp at this

/-- Witness for C1's amended statement at `"it's"`: rendered output `"its"`,
which the shell literal parser maps to itself, differing from the
original content. -/
theorem render_string_no_requoting_witness :
    fmtBash (.string "it's") = .ok "its" ∧
      unescape "its" = some "its" ∧
      "its" ≠ "it's" := by
  have h := render_string_no_requoting "it's" (by decide)
  exact ⟨h.1, h.2.1, h.2.2 ⟨'\'', by decide, rfl⟩⟩

/-! ### Totality of the renderer on well-escaped values -/

theorem write_atom_total {v : Value} (ha : is_atomic v = true)
    (hs : atomSafe v = true) : ∃ a, write_atom v = .ok a := by
  cases v with
  | string s =>
    have hs' : (unescape s).isSome = true := hs
    cases hu : unescape s with
    | none => rw [hu] at hs'; cases hs'
    | some raw => exact ⟨raw, by rw [write_atom, hu]⟩
  | boolean b => exact ⟨_, rfl⟩
  | integer i => exact ⟨_, rfl⟩
  | float t => exact ⟨_, rfl⟩
  | datetime t => exact ⟨_, rfl⟩
  | array elems => exact absurd ha (by simp [is_atomic])
  | table entries => exact absurd ha (by simp [is_atomic])

theorem fmtArrayLoop_total (xs : List Value) :
    ∀ (b : Bool) (acc : String), (∀ e ∈ xs, atomSafe e = true) →
      ∃ out, fmtArrayLoop xs b acc = .ok out := by
  induction xs with
  | nil => intro b acc _; exact ⟨acc, rfl⟩
  | cons x rest ih =>
    intro b acc h
    have hrest := fun e he => h e (List.mem_cons_of_mem _ he)
    cases ha : is_atomic x with
    | false =>
      rw [fmtArrayLoop, if_neg (by simp [ha])]
      exact ih b acc hrest
    | true =>
      obtain ⟨a, hw⟩ := write_atom_total ha (h x (List.mem_cons_self _ _))
      rw [fmtArrayLoop, if_pos ha, hw]
      exact ih true ((if b then acc ++ " " else acc) ++ a) hrest

theorem fmtTableLoop_total (es : List (String × Value)) :
    ∀ (b : Bool) (acc : String),
      (∀ e ∈ es, (!is_atomic e.2 ||
        ((unescape e.1).isSome && atomSafe e.2)) = true) →
      ∃ out, fmtTableLoop es b acc = .ok out := by
  induction es with
  | nil => intro b acc _; exact ⟨acc, rfl⟩
  | cons e rest ih =>
    intro b acc h
    obtain ⟨key, value⟩ := e
    have hrest := fun x hx => h x (List.mem_cons_of_mem _ hx)
    cases ha : is_atomic value with
    | false =>
      rw [fmtTableLoop, if_neg (by simp [ha])]
      exact ih b acc hrest
    | true =>
      have hhead := h (key, value) (List.mem_cons_self _ _)
      rw [show (key, value).2 = value from rfl, ha] at hhead
      simp only [Bool.not_true, Bool.false_or, Bool.and_eq_true] at hhead
      obtain ⟨hk, hv⟩ := hhead
      obtain ⟨ku, hku⟩ := Option.isSome_iff_exists.mp hk
      obtain ⟨a, hw⟩ := write_atom_total ha hv
      rw [fmtTableLoop, if_pos ha, hku, hw]
      exact ih true ((if b then acc ++ " " else acc) ++ "[" ++ ku ++ "]=" ++ a)
        hrest

/-- C2 is false as stated: rendering is not total.  On the string value with
raw content `"\q` — a double quote opening a quoted section followed by the
invalid escape `\q` — `snailquote::unescape` returns `Err` and the `unwrap`
inside `write_atom` panics, so there is a `Value` on which rendering fails
rather than producing a string. -/
theorem render_panics_counterexample :
    fmtBash (.string "\"\\q") = .error .unescapeUnwrap ∧
      ¬ ∃ out, fmtBash (.string "\"\\q") = .ok out := by
  refine ⟨rfl, ?_⟩
  rintro ⟨out, hout⟩
  rw [show fmtBash (.string "\"\\q") = .error .unescapeUnwrap from rfl] at hout
  cases hout

/-- C2 (amended): rendering is total on every value whose rendered string
contents are well-formed shell literals — every string atom the renderer
writes, and every key of a surviving table entry, must unescape
successfully; on such values every variant renders to some string.  (The
unrestricted claim fails because the `unwrap` on `snailquote::unescape` can
panic; see the counterexample.) -/
theorem render_total_on_safe_values (v : Value) (h : renderSafe v = true) :
    ∃ out, fmtBash v = .ok out := by
  cases v with
  | array elems =>
    have h' : ∀ e ∈ elems, atomSafe e = true :=
      List.all_eq_true.mp (show elems.all atomSafe = true from h)
    exact fmtArrayLoop_total elems false "" h'
  | table entries =>
    have h' := List.all_eq_true.mp
      (show entries.all (fun e => !is_atomic e.2 ||
        ((unescape e.1).isSome && atomSafe e.2)) = true from h)
    exact fmtTableLoop_total entries false "" h'
  | string s =>
    obtain ⟨a, hw⟩ := write_atom_total (v := .string s) rfl h
    exact ⟨a, hw⟩
  | integer i => exact ⟨_, rfl⟩
  | boolean b => exact ⟨_, rfl⟩
  | float t => exact ⟨_, rfl⟩
  | datetime t => exact ⟨_, rfl⟩

/-- Witness for C2's amended statement: a safe mixed value renders. -/
theorem render_total_on_safe_values_witness :
    renderSafe (.array [.string "a b", .table [], .integer 3]) = true ∧
      ∃ out, fmtBash (.array [.string "a b", .table [], .integer 3])
        = .ok out :=
  ⟨rfl, render_total_on_safe_values
    (.array [.string "a b", .table [], .integer 3]) rfl⟩

/-- Witness for C7: `42` at the root renders as `"42\n"`; `true` at the root
and `42` inside an array or a table entry render with no newline. -/
theorem integer_root_trailing_newline_witness :
    fmtBash (.integer 42) = .ok (toString (42 : Int) ++ "\n") ∧
      fmtBash (.boolean true) = write_atom (.boolean true) ∧
      fmtBash (.array [.integer 42]) = .ok (toString (42 : Int)) ∧
      fmtBash (.table [("k", .integer 42)])
        = .ok ("[" ++ "k" ++ "]=" ++ toString (42 : Int)) :=
  ⟨integer_root_trailing_newline.1 42,
    integer_root_trailing_newline.2.1 (.boolean true) rfl
      (fun _ h => Value.noConfusion h),
    integer_root_trailing_newline.2.2.1 42,
    integer_root_trailing_newline.2.2.2 "k" 42 rfl⟩

end Tq
